import Mathlib

/-!
Verification development for the `Invoice_gen` repository.

The Python sources are shallowly embedded:
* `src/pdf_generator.py` — text sanitising (`safe_para`), formatting helpers
  (`initials`, `fmt_date`, `fmt_time`, `money`, `normalise_lines`),
  `payment_rows`, and the pure data part of `build_invoice_pdf`;
* `src/storage.py` — the append-only profile/history logs and their
  load/prune operations;
* `src/app.py` — `InvoiceApp._normalize_loaded_profiles`.

Machine floats are modelled as exact rationals, Python dicts with a fixed key
set as structures with `Option` fields (`none` = key absent), JSONL files as
`Option (List record)` (`none` = file absent), and Python dict insertion
order by association lists.
-/

namespace InvoiceGen

/-! ### Characters and digit strings -/

def digitChar (d : Nat) : Char := Char.ofNat (48 + d % 10)

/-- Decimal digits of `n`, most significant first (fuel-driven so that it
reduces in the kernel). -/
def natDigitsAux : Nat → Nat → List Char → List Char
  | 0, _, acc => acc
  | _ + 1, 0, acc => acc
  | fuel + 1, n + 1, acc =>
    natDigitsAux fuel ((n + 1) / 10) (digitChar ((n + 1) % 10) :: acc)

def natDigits (n : Nat) : List Char :=
  if n = 0 then ['0'] else natDigitsAux n n []

def natStr (n : Nat) : String := ⟨natDigits n⟩

/-- Python `f"{n:02d}"` on a natural number. -/
def pad2 (n : Nat) : String := if n < 10 then "0" ++ natStr n else natStr n

/-! ### `xml.sax.saxutils.escape` and `safe_para` (src/pdf_generator.py 44-54)

`escape` replaces every `&` with `&amp;`, `<` with `&lt;` and `>` with
`&gt;`; it acts independently on each character. -/

def escapeChar (c : Char) : List Char :=
  if c = '&' then "&amp;".data
  else if c = '<' then "&lt;".data
  else if c = '>' then "&gt;".data
  else [c]

def escapeL (l : List Char) : List Char := (l.map escapeChar).flatten

/-- Python `str.replace` for a non-empty pattern: scan left to right and
replace non-overlapping occurrences.  Fuel-driven; `replaceAll` supplies
`l.length` which is always sufficient. -/
def replaceAllF (pat rep : List Char) : Nat → List Char → List Char
  | _, [] => []
  | 0, l => l
  | fuel + 1, c :: rest =>
    if pat ≠ [] ∧ pat.isPrefixOf (c :: rest) then
      rep ++ replaceAllF pat rep fuel ((c :: rest).drop pat.length)
    else
      c :: replaceAllF pat rep fuel rest

def replaceAll (pat rep l : List Char) : List Char := replaceAllF pat rep l.length l

/-- The allow-list restoration loop of `safe_para`, in the dict-iteration
order of the source. -/
def restoreAllow (l : List Char) : List Char :=
  replaceAll "&lt;br&gt;".data "<br/>".data
    (replaceAll "&lt;br/&gt;".data "<br/>".data
      (replaceAll "&lt;/b&gt;".data "</b>".data
        (replaceAll "&lt;b&gt;".data "<b>".data l)))

def newlineToBr (l : List Char) : List Char := replaceAll ['\n'] "<br/>".data l

def safeParaL (l : List Char) : List Char := newlineToBr (restoreAllow (escapeL l))

/-- The markup string built by `safe_para` (the `Paragraph` style argument is
layout-only and not modelled). -/
def safe_para (text : String) : String := ⟨safeParaL text.data⟩

/-! ### Python whitespace helpers on `List Char` -/

def dropWs : List Char → List Char
  | [] => []
  | c :: rest => if c.isWhitespace then dropWs rest else c :: rest

/-- Python `str.strip()` (whitespace on both ends). -/
def pyStrip (s : String) : String := ⟨(dropWs (dropWs s.data.reverse).reverse)⟩

/-- Python `str.split()` with no argument: split on whitespace runs, dropping
empty pieces. -/
def pySplitWsAux : List Char → List Char → List String
  | [], acc => if acc = [] then [] else [⟨acc.reverse⟩]
  | c :: rest, acc =>
    if c.isWhitespace then
      (if acc = [] then [] else [(⟨acc.reverse⟩ : String)]) ++ pySplitWsAux rest []
    else pySplitWsAux rest (c :: acc)

def pySplitWs (s : String) : List String := pySplitWsAux s.data []

/-! ### `initials`, `fmt_date`, `fmt_time`, `money` (src/pdf_generator.py 15-31) -/

def initials (name : String) : String :=
  let parts := pySplitWs (pyStrip name)
  if parts = [] then "XX"
  else ⟨(parts.take 2).map (fun p => (p.data.headD ' ').toUpper)⟩

/-! ### Exact fractions standing in for Python floats

A Python float is modelled as an exact (not necessarily reduced) fraction
with positive denominator, so that every arithmetic step of the source is
exact and reduces inside the kernel. -/

structure PyFloat where
  num : Int
  den : Nat := 1
deriving DecidableEq, Repr

instance (n : Nat) : OfNat PyFloat n := ⟨⟨n, 1⟩⟩

def PyFloat.mul (a b : PyFloat) : PyFloat := ⟨a.num * b.num, a.den * b.den⟩

instance : Mul PyFloat := ⟨PyFloat.mul⟩

def PyFloat.add (a b : PyFloat) : PyFloat :=
  ⟨a.num * (b.den : Int) + b.num * (a.den : Int), a.den * b.den⟩

instance : Add PyFloat := ⟨PyFloat.add⟩

/-- Division of a fraction by a positive natural number. -/
def PyFloat.divNat (a : PyFloat) (n : Nat) : PyFloat := ⟨a.num, a.den * n⟩

def PyFloat.floor (a : PyFloat) : Int := a.num.fdiv (a.den : Int)

/-- `a/b` with `b = m/100`, as a fraction: used only to state concrete
inputs such as `1.5` or `75.00`. -/
def pyFrac (n : Int) (d : Nat) : PyFloat := ⟨n, d⟩

/-- Round to the nearest integer, ties to even (the rounding used by
Python's fixed-point float formatting). -/
def roundHalfEven (x : PyFloat) : Int :=
  let f : Int := x.floor
  let r : Int := x.num - f * (x.den : Int)
  if 2 * r < (x.den : Int) then f
  else if (x.den : Int) < 2 * r then f + 1
  else if f % 2 = 0 then f else f + 1

/-- Group reversed digit characters in threes with `,` (thousands separator),
working on the least-significant-first list. -/
def commaGroupRev : List Char → List Char
  | d1 :: d2 :: d3 :: d4 :: rest => d1 :: d2 :: d3 :: ',' :: commaGroupRev (d4 :: rest)
  | l => l

/-- Digits of a cent count rendered as `intpart.withcommas ++ "." ++ 2 cents`. -/
def moneyCore (cents : Nat) : List Char :=
  (commaGroupRev (natDigits (cents / 100)).reverse).reverse ++
    ['.', digitChar (cents % 100 / 10), digitChar (cents % 100 % 10)]

def moneyData (x : PyFloat) : List Char :=
  let c := roundHalfEven (x * 100)
  (if c < 0 then ['-'] else []) ++ moneyCore c.natAbs

/-- Python `f"{x:,.2f}"`. -/
def money (x : PyFloat) : String := ⟨moneyData x⟩

/-- Python `f"{x:.2f}"` (no thousands separator). -/
def fmt2 (x : PyFloat) : String :=
  let c := roundHalfEven (x * 100)
  ⟨(if c < 0 then ['-'] else []) ++
    (natDigits (c.natAbs / 100) ++ ['.', digitChar (c.natAbs % 100 / 10),
      digitChar (c.natAbs % 100 % 10)])⟩

/-! ### Dates (Python `datetime.date` ordinal arithmetic) -/

structure PyDate where
  year : Nat
  month : Nat
  day : Nat
deriving DecidableEq, Repr

def isLeap (y : Nat) : Bool := y % 4 = 0 && (y % 100 ≠ 0 || y % 400 = 0)

def monthLengths (leap : Bool) : List Nat :=
  [31, if leap then 29 else 28, 31, 30, 31, 30, 31, 31, 30, 31, 30, 31]

def daysBeforeYear (y : Nat) : Nat :=
  (y - 1) * 365 + (y - 1) / 4 - (y - 1) / 100 + (y - 1) / 400

def daysBeforeMonth (leap : Bool) (m : Nat) : Nat :=
  ((monthLengths leap).take (m - 1)).foldl (· + ·) 0

/-- Python `date.toordinal`: day number with 0001-01-01 ↦ 1. -/
def toOrdinal (d : PyDate) : Nat :=
  daysBeforeYear d.year + daysBeforeMonth (isLeap d.year) d.month + d.day

def findMonth : List Nat → Nat → Nat → Nat × Nat
  | [], n, m => (m, n + 1)
  | len :: rest, n, m => if n < len then (m, n + 1) else findMonth rest (n - len) (m + 1)

/-- Python `date.fromordinal` (CPython `_ord2ymd`). -/
def fromOrdinal (N : Nat) : PyDate :=
  let n0 := N - 1
  let n400 := n0 / 146097
  let r400 := n0 % 146097
  let n100 := r400 / 36524
  let r100 := r400 % 36524
  let n4 := r100 / 1461
  let r4 := r100 % 1461
  let n1 := r4 / 365
  let r1 := r4 % 365
  let year := n400 * 400 + n100 * 100 + n4 * 4 + n1 + 1
  if n1 = 4 ∨ n100 = 4 then ⟨year - 1, 12, 31⟩
  else
    let md := findMonth (monthLengths (isLeap year)) r1 1
    ⟨year, md.1, md.2⟩

/-- Python `d + datetime.timedelta(days=k)` for a non-negative `k`. -/
def addDays (d : PyDate) (k : Nat) : PyDate := fromOrdinal (toOrdinal d + k)

/-- Python `d.strftime("%d-%m-%Y")`. -/
def fmt_date (d : PyDate) : String :=
  pad2 d.day ++ "-" ++ pad2 d.month ++ "-" ++ natStr d.year

/-- Python `d.strftime("%d%m%y")`. -/
def fmtDDMMYY (d : PyDate) : String := pad2 d.day ++ pad2 d.month ++ pad2 (d.year % 100)

/-- Python `datetime.datetime`: a date plus seconds since midnight (kept
as an exact fraction so fractional-hour arithmetic is exact). -/
structure PyDateTime where
  date : PyDate
  seconds : PyFloat
deriving DecidableEq, Repr

/-- Python `t + datetime.timedelta(hours=h)`. -/
def addHours (t : PyDateTime) (h : PyFloat) : PyDateTime :=
  let total : PyFloat := (⟨(toOrdinal t.date : Int) * 86400, 1⟩ : PyFloat) + t.seconds + h * ⟨3600, 1⟩
  let days : Int := (total.divNat 86400).floor
  { date := fromOrdinal days.toNat,
    seconds := total + (⟨-days * 86400, 1⟩ : PyFloat) }

/-- Python `t.strftime("%H:%M")`. -/
def fmt_time (t : PyDateTime) : String :=
  pad2 (t.seconds.floor.toNat / 3600) ++ ":" ++
    pad2 (t.seconds.floor.toNat % 3600 / 60)

/-! ### `normalise_lines` (src/pdf_generator.py 34-41)

The `address_lines` value is `None`, a string or a list of strings. -/

inductive AddrLines where
  | none
  | str (s : String)
  | list (l : List String)
deriving DecidableEq, Repr

def normalise_lines : AddrLines → List String
  | .none => []
  | .str s => if pyStrip s = "" then [] else [pyStrip s]
  | .list l => (l.map pyStrip).filter (· ≠ "")

/-! ### Payment methods (src/pdf_generator.py 57-77, src/app.py 251-256) -/

/-- The `details` dict of a payment method; `none` models an absent key. -/
structure PMDetails where
  currency : Option String := Option.none
  account_holder : Option String := Option.none
  bank_name : Option String := Option.none
  sort_code : Option String := Option.none
  account_number : Option String := Option.none
  iban : Option String := Option.none
  bic : Option String := Option.none
  paypal_email : Option String := Option.none
  paypal_link : Option String := Option.none
deriving DecidableEq, Repr

structure PaymentMethod where
  label : Option String := Option.none
  method_type : Option String := Option.none
  details : PMDetails := {}
deriving DecidableEq, Repr

/-- Python `str.title()`: uppercase each alphabetic character that follows a
non-alphabetic one, lowercase the rest (used for the default method label). -/
def pyTitleAux : Bool → List Char → List Char
  | _, [] => []
  | prevAlpha, c :: rest =>
    (if c.isAlpha then (if prevAlpha then c.toLower else c.toUpper) else c) ::
      pyTitleAux c.isAlpha rest

def pyTitle (s : String) : String := ⟨pyTitleAux false s.data⟩

/-- `payment_rows` (src/pdf_generator.py 57-77). -/
def payment_rows (pm : PaymentMethod) (reference currency : String) :
    List (String × String) :=
  let method_type := pm.method_type.getD "bank_transfer"
  let d := pm.details
  let rows := [("Payment method", pm.label.getD (pyTitle method_type)),
               ("Payment currency", d.currency.getD currency)]
  if method_type = "paypal" then
    rows ++ [("PayPal email", d.paypal_email.getD ""),
             ("PayPal link", d.paypal_link.getD ""),
             ("Reference", reference)]
  else
    rows ++ [("Account holder", d.account_holder.getD ""),
             ("Bank", d.bank_name.getD ""),
             ("Sort code", d.sort_code.getD ""),
             ("Account number", d.account_number.getD ""),
             ("IBAN", d.iban.getD ""),
             ("BIC/SWIFT", d.bic.getD ""),
             ("Reference", reference)]

/-- `InvoiceApp._normalize_loaded_profiles` (src/app.py 251-256), on one
payment-method record: the legacy `bank_transfer` value is reclassified by
truthiness of `details.get("iban")`. -/
def normalizePaymentMethod (pm : PaymentMethod) : PaymentMethod :=
  if pm.method_type = some "bank_transfer" then
    { pm with
      method_type :=
        some (if pm.details.iban.getD "" = "" then "bank_domestic"
              else "bank_international") }
  else pm

/-- The load-time loop of `_normalize_loaded_profiles` over the
`payment_method` group. -/
def normalizeLoadedPaymentMethods (l : List PaymentMethod) : List PaymentMethod :=
  l.map normalizePaymentMethod

/-! ### The invoice record and `build_invoice_pdf` (src/pdf_generator.py 80-160) -/

/-- A provider or recipient profile as consumed by `build_invoice_pdf`
(`display_name` is accessed with `[...]`, so it is required). -/
structure Party where
  display_name : String
  address_lines : AddrLines := .str ""
  email : Option String := Option.none
deriving DecidableEq, Repr

/-- The invoice dict handed to `build_invoice_pdf`; `Option` fields are the
keys read through `.get` with a default. -/
structure Invoice where
  session_start : PyDateTime
  session_duration_hours : PyFloat
  invoice_date : PyDate
  due_days : Option Nat := Option.none
  invoice_number : String
  provider : Party
  recipient : Party
  student_name : Option String := Option.none
  reference : Option String := Option.none
  currency : Option String := Option.none
  service_category : Option String := Option.none
  service_title : Option String := Option.none
  prep_hours : Option PyFloat := Option.none
  prep_description : Option String := Option.none
  rate_per_hour : Option PyFloat := Option.none
  prep_rate : Option PyFloat := Option.none
  terms_label : Option String := Option.none
  payment_method : PaymentMethod
deriving DecidableEq, Repr

/-- The data content of the generated document: every string cell exactly as
handed to the layout library (cells built through `safe_para` carry its
output). -/
structure InvoiceDoc where
  reference : String
  dueDate : PyDate
  sessionEnd : PyDateTime
  billed : PyFloat
  fromCell : String
  billCell : String
  metaRows : List (List String)
  itemRows : List (List String)
  subtotalCell : String
  totalCell : String
  payRows : List (String × String)
  footer : String
deriving Repr

/-- The pure data part of `build_invoice_pdf` (src/pdf_generator.py 80-160):
all computed values and table cells, in source order.  Styling, column
widths and the actual PDF rendering are layout-only and not modelled. -/
def build_invoice_pdf (invoice : Invoice) : InvoiceDoc :=
  let session_start := invoice.session_start
  let session_duration_hours := invoice.session_duration_hours
  let session_end := addHours session_start session_duration_hours
  let invoice_date := invoice.invoice_date
  let due_days := invoice.due_days.getD 7
  let due_date := addDays invoice_date due_days
  let provider := invoice.provider
  let recipient := invoice.recipient
  let student_name := invoice.student_name.getD ""
  let label := if pyStrip student_name ≠ "" then student_name else recipient.display_name
  let reference :=
    match invoice.reference with
    | some r => if r = "" then "Tut-" ++ initials label ++ "-" ++ fmtDDMMYY session_start.date else r
    | Option.none => "Tut-" ++ initials label ++ "-" ++ fmtDDMMYY session_start.date
  let from_lines :=
    ("<b>" ++ provider.display_name ++ "</b>") :: normalise_lines provider.address_lines ++
      (if pyStrip (provider.email.getD "") ≠ "" then [pyStrip (provider.email.getD "")] else [])
  let bill_lines :=
    "<b>Bill To:</b>" :: recipient.display_name :: normalise_lines recipient.address_lines ++
      (if pyStrip (recipient.email.getD "") ≠ "" then [pyStrip (recipient.email.getD "")] else [])
  let currency := invoice.currency.getD "GBP"
  let service_category := invoice.service_category.getD "General"
  let service_title := invoice.service_title.getD "Professional service"
  let prep_hours := invoice.prep_hours.getD 0
  let prep_description := invoice.prep_description.getD "Preparation (not billed)"
  let rate := invoice.rate_per_hour.getD 0
  let prep_rate := invoice.prep_rate.getD 0
  let billed := session_duration_hours * rate
  let session_label :=
    fmt_date session_start.date ++ "  " ++ fmt_time session_start ++ "–" ++ fmt_time session_end
  { reference := reference
    dueDate := due_date
    sessionEnd := session_end
    billed := billed
    fromCell := safe_para (String.intercalate "\n" from_lines)
    billCell := safe_para (String.intercalate "\n" bill_lines)
    metaRows :=
      [["Invoice #", invoice.invoice_number, "Invoice date", fmt_date invoice_date],
       ["Terms", invoice.terms_label.getD "Net 7", "Due date", fmt_date due_date],
       ["Service type", service_category, "Session", session_label],
       ["Client reference", if student_name = "" then "-" else student_name, "", ""]]
    itemRows :=
      [[safe_para "<b>Description</b>", safe_para "<b>Hours</b>",
        safe_para ("<b>Rate (" ++ currency ++ ")</b>"),
        safe_para ("<b>Amount (" ++ currency ++ ")</b>")],
       [safe_para (service_title ++ "\nSession date/time: " ++ session_label),
        safe_para (fmt2 session_duration_hours), safe_para (money rate),
        safe_para (money billed)],
       [safe_para ("Preparation (not billed): " ++ fmt2 prep_hours ++ " hours\n" ++
          prep_description),
        safe_para (fmt2 prep_hours), safe_para (money prep_rate),
        safe_para (money 0)]]
    subtotalCell := safe_para (money billed)
    totalCell := safe_para (money billed)
    payRows := (payment_rows invoice.payment_method reference currency).map
      (fun kv => (safe_para kv.1, safe_para kv.2))
    footer := safe_para "Thank you. Please use the payment reference shown above." }

/-! ### The record store (src/storage.py)

A JSONL file is `Option (List record)`: `none` when the file does not exist
(`_read_jsonl` then returns the empty list), `some rows` otherwise. -/

def read_jsonl {α : Type} (file : Option (List α)) : List α := file.getD []

/-- One profile log line.  `id`/`ptype` are `none` when the corresponding
key is absent; `deleted` models a truthy `_deleted`; `payload` carries the
remaining fields so that two versions of a record can differ. -/
structure PRow where
  id : Option String := Option.none
  ptype : Option String := Option.none
  deleted : Bool := false
  display_name : Option String := Option.none
  label : Option String := Option.none
  payload : List (String × String) := []
deriving DecidableEq, Repr

/-- `d[k] = v` on an insertion-ordered Python dict: replace the (unique)
binding of `k` in place, else append. -/
def dictInsert : List (String × PRow) → String → PRow → List (String × PRow)
  | [], k, v => [(k, v)]
  | kv :: rest, k, v => if kv.1 = k then (k, v) :: rest else kv :: dictInsert rest k v

/-- The first loop of `load_profiles` (src/storage.py 43-47): fold the rows
into `items_by_id`, skipping rows without `id` or `type`. -/
def itemsByIdAux (m : List (String × PRow)) : List PRow → List (String × PRow)
  | [] => m
  | r :: rs =>
    itemsByIdAux (if r.id.isSome ∧ r.ptype.isSome then dictInsert m (r.id.getD "") r else m) rs

def items_by_id (rows : List PRow) : List (String × PRow) := itemsByIdAux [] rows

def lookupId (m : List (String × PRow)) (k : String) : Option PRow :=
  (m.find? (fun kv => kv.1 = k)).map (·.2)

/-- `grouped.setdefault(t, []).append(r)` on an insertion-ordered dict of
buckets. -/
def appendGroup : List (String × List PRow) → String → PRow → List (String × List PRow)
  | [], t, r => [(t, [r])]
  | kv :: rest, t, r =>
    if kv.1 = t then (kv.1, kv.2 ++ [r]) :: rest else kv :: appendGroup rest t r

/-- The second loop of `load_profiles` (src/storage.py 49-53): group the
surviving records by type, skipping soft-deleted ones. -/
def groupItems : List (String × List PRow) → List PRow → List (String × List PRow)
  | g, [] => g
  | g, r :: rs => groupItems (if r.deleted then g else appendGroup g (r.ptype.getD "") r) rs

/-- The sort key `x.get("display_name") or x.get("label") or x.get("id", "")`
with Python `or` falsiness on empty strings. -/
def keyOr (o : Option String) (fallback : String) : String :=
  match o with
  | some s => if s = "" then fallback else s
  | Option.none => fallback

def profileSortKey (r : PRow) : String := keyOr r.display_name (keyOr r.label (r.id.getD ""))

/-- Stable insertion into a key-sorted list: the inserted element (which
preceded the already-sorted tail in the input) goes before the first element
of equal or greater key. -/
def insertSorted (x : PRow) : List PRow → List PRow
  | [] => [x]
  | y :: ys =>
    if profileSortKey x ≤ profileSortKey y then x :: y :: ys else y :: insertSorted x ys

/-- `bucket.sort(key=...)` — a stable sort by `profileSortKey`. -/
def sortProfiles : List PRow → List PRow
  | [] => []
  | x :: xs => insertSorted x (sortProfiles xs)

def findGroup (g : List (String × List PRow)) (t : String) : List PRow :=
  ((g.find? (fun kv => kv.1 = t)).map (·.2)).getD []

/-- `load_profiles` (src/storage.py 41-57): read the seed log then the local
log, overlay by id, drop tombstoned records, group by type, sort each
bucket. -/
def load_profiles (seedFile localFile : Option (List PRow)) : List (String × List PRow) :=
  let m := items_by_id (read_jsonl seedFile ++ read_jsonl localFile)
  let grouped := groupItems
    [("provider", []), ("recipient", []), ("payment_method", [])] (m.map (·.2))
  grouped.map (fun kv => (kv.1, sortProfiles kv.2))

/-- `save_profile` / `upsert_profile`: append to the local log. -/
def save_profile (localLog : List PRow) (record : PRow) : List PRow := localLog ++ [record]

/-- The tombstone record appended by `delete_profile` (src/storage.py 68-69). -/
def deleteRecord (profile_id profile_type : String) : PRow :=
  { id := some profile_id, ptype := some profile_type, deleted := true }

/-- `delete_profile`: append a tombstone to the local log; no line of either
log is rewritten. -/
def delete_profile (localLog : List PRow) (profile_id profile_type : String) : List PRow :=
  save_profile localLog (deleteRecord profile_id profile_type)

/-- One history log line (`output_path` is `none` when the key is absent). -/
structure HEntry where
  invoice_number : String := ""
  output_path : Option String := Option.none
  created_at : String := ""
deriving DecidableEq, Repr

/-- Python `l[k:]` for an arbitrary integer `k`. -/
def pySliceFrom {α : Type} (l : List α) (k : Int) : List α :=
  if 0 ≤ k then l.drop k.toNat else l.drop (l.length - (-k).toNat)

/-- `load_history` (src/storage.py 76-78): `list(reversed(items[-limit:]))`. -/
def load_history (file : Option (List HEntry)) (limit : Int) : List HEntry :=
  (pySliceFrom (read_jsonl file) (-limit)).reverse

/-- The keep test of `prune_missing_history_files` (src/storage.py 94-95):
`not path or Path(path).exists()`, with `fs` telling which paths exist. -/
def keepEntry (fs : String → Bool) (e : HEntry) : Bool :=
  match e.output_path with
  | Option.none => true
  | some p => if p = "" then true else fs p

/-- The kept/removed loop of `prune_missing_history_files` (src/storage.py 91-98). -/
def pruneScan (fs : String → Bool) (items : List HEntry) : List HEntry × Nat :=
  items.foldl
    (fun acc e => if keepEntry fs e then (acc.1 ++ [e], acc.2) else (acc.1, acc.2 + 1))
    ([], 0)

/-- `prune_missing_history_files` (src/storage.py 89-101): returns the new
history-log contents (rewritten only when something was removed) and the
removal count. -/
def prune_missing_history_files (fs : String → Bool) (items : List HEntry) :
    List HEntry × Nat :=
  (if (pruneScan fs items).2 ≠ 0 then (pruneScan fs items).1 else items,
    (pruneScan fs items).2)

/-- The settings document (`selected_profiles` and `field_defaults` are
string-keyed JSON objects). -/
structure Settings where
  selected_profiles : List (String × String) := []
  field_defaults : List (String × String) := []
deriving DecidableEq, Repr

/-- `load_settings` (src/storage.py 110-114): a missing file yields the
shaped default document. -/
def load_settings (file : Option Settings) : Settings :=
  match file with
  | Option.none => { selected_profiles := [], field_defaults := [] }
  | some s => s

/-! ## Lemmas about `safe_para`

`SafeStr l` says every `<` in `l` opens one of the three allow-listed
formatting tags, so the string carries no structural markup beyond the
allow-list. -/

inductive SafeStr : List Char → Prop where
  | nil : SafeStr []
  | chr {c : Char} {rest : List Char} : c ≠ '<' → SafeStr rest → SafeStr (c :: rest)
  | tagb {rest : List Char} : SafeStr rest → SafeStr ('<' :: 'b' :: '>' :: rest)
  | tagbe {rest : List Char} : SafeStr rest → SafeStr ('<' :: '/' :: 'b' :: '>' :: rest)
  | tagbr {rest : List Char} : SafeStr rest → SafeStr ('<' :: 'b' :: 'r' :: '/' :: '>' :: rest)

/-- Prefix test that reduces as soon as its first argument is concrete. -/
def prefixTest : List Char → List Char → Bool
  | [], _ => true
  | _ :: _, [] => false
  | a :: as, b :: bs => a == b && prefixTest as bs

/-- The decidable form of `SafeStr`: scan the list and check every `<`. -/
def ltOkF : Nat → List Char → Bool
  | 0, l => l.isEmpty
  | _ + 1, [] => true
  | fuel + 1, c :: rest =>
    if c = '<' then
      if prefixTest ['b', '>'] rest then ltOkF fuel (rest.drop 2)
      else if prefixTest ['/', 'b', '>'] rest then ltOkF fuel (rest.drop 3)
      else if prefixTest ['b', 'r', '/', '>'] rest then ltOkF fuel (rest.drop 4)
      else false
    else ltOkF fuel rest

def ltOk (l : List Char) : Bool := ltOkF l.length l

lemma replaceAllF_fuel (pat rep : List Char) :
    ∀ f₁ f₂ l, l.length ≤ f₁ → l.length ≤ f₂ →
      replaceAllF pat rep f₁ l = replaceAllF pat rep f₂ l := by
  intro f₁
  induction f₁ with
  | zero =>
    intro f₂ l h₁ _
    have : l = [] := List.eq_nil_of_length_eq_zero (Nat.le_zero.mp h₁)
    subst this
    cases f₂ <;> rfl
  | succ f ih =>
    intro f₂ l h₁ h₂
    cases l with
    | nil => cases f₂ <;> rfl
    | cons c rest =>
      cases f₂ with
      | zero => simp at h₂
      | succ f₂' =>
        simp only [replaceAllF]
        by_cases hm : pat ≠ [] ∧ pat.isPrefixOf (c :: rest)
        · rw [if_pos hm, if_pos hm]
          have hp : 1 ≤ pat.length := by
            cases pat with
            | nil => exact absurd rfl hm.1
            | cons a as => simp
          have hd : ((c :: rest).drop pat.length).length ≤ f := by
            simp only [List.length_drop, List.length_cons]
            simp only [List.length_cons] at h₁
            omega
          have hd₂ : ((c :: rest).drop pat.length).length ≤ f₂' := by
            simp only [List.length_drop, List.length_cons]
            simp only [List.length_cons] at h₂
            omega
          rw [ih f₂' _ hd hd₂]
        · rw [if_neg hm, if_neg hm]
          have hr : rest.length ≤ f := by simp only [List.length_cons] at h₁; omega
          have hr₂ : rest.length ≤ f₂' := by simp only [List.length_cons] at h₂; omega
          rw [ih f₂' rest hr hr₂]

lemma replaceAll_cons_match {pat : List Char} (rep : List Char) {c : Char}
    {rest : List Char} (h1 : pat ≠ []) (h2 : pat.isPrefixOf (c :: rest)) :
    replaceAll pat rep (c :: rest) =
      rep ++ replaceAll pat rep ((c :: rest).drop pat.length) := by
  unfold replaceAll
  simp only [List.length_cons, replaceAllF, if_pos (And.intro h1 h2)]
  congr 1
  apply replaceAllF_fuel
  · have hp : 1 ≤ pat.length := by
      cases pat with
      | nil => exact absurd rfl h1
      | cons a as => simp
    simp only [List.length_drop, List.length_cons]
    omega
  · exact Nat.le_refl _

lemma replaceAll_cons_nomatch {pat : List Char} (rep : List Char) {c : Char}
    {rest : List Char} (h : ¬(pat ≠ [] ∧ pat.isPrefixOf (c :: rest))) :
    replaceAll pat rep (c :: rest) = c :: replaceAll pat rep rest := by
  unfold replaceAll
  simp only [List.length_cons, replaceAllF, if_neg h]

lemma replaceAll_nil (pat rep : List Char) : replaceAll pat rep [] = [] := rfl

lemma isPrefixOf_cons_false {pat : List Char} {h0 c : Char} {l : List Char}
    (hhead : pat.head? = some h0) (hne : c ≠ h0) : ¬ pat.isPrefixOf (c :: l) = true := by
  cases pat with
  | nil => simp at hhead
  | cons a as =>
    simp only [List.head?_cons, Option.some.injEq] at hhead
    subst hhead
    simp only [List.isPrefixOf_cons₂, Bool.and_eq_true, beq_iff_eq]
    intro hh
    exact hne hh.1.symm

/-- A block whose characters all differ from the pattern head is copied
verbatim by `replaceAll`. -/
lemma replaceAll_skip {pat : List Char} (rep : List Char) {h0 : Char}
    (hhead : pat.head? = some h0) :
    ∀ t xs, (∀ c ∈ t, c ≠ h0) →
      replaceAll pat rep (t ++ xs) = t ++ replaceAll pat rep xs := by
  intro t
  induction t with
  | nil => intro xs _; rfl
  | cons c t' ih =>
    intro xs ht
    have hne : c ≠ h0 := ht c (List.mem_cons_self _ _)
    have hnm : ¬((pat ≠ []) ∧ pat.isPrefixOf (c :: (t' ++ xs))) := by
      intro hcon
      exact isPrefixOf_cons_false hhead hne hcon.2
    rw [List.cons_append, replaceAll_cons_nomatch rep hnm,
      ih xs (fun d hd => ht d (List.mem_cons_of_mem _ hd))]
    rfl

lemma replaceAll_eq_self (pat rep : List Char) (h0 : Char)
    (hhead : pat.head? = some h0) (l : List Char) (habs : ∀ c ∈ l, c ≠ h0) :
    replaceAll pat rep l = l := by
  have h := replaceAll_skip rep hhead l [] habs
  simpa [replaceAll_nil] using h

lemma safeStr_of_no_lt : ∀ l : List Char, (∀ c ∈ l, c ≠ '<') → SafeStr l := by
  intro l
  induction l with
  | nil => intro _; exact SafeStr.nil
  | cons c rest ih =>
    intro h
    exact SafeStr.chr (h c (List.mem_cons_self _ _))
      (ih fun d hd => h d (List.mem_cons_of_mem _ hd))

lemma safeStr_append {a b : List Char} (ha : SafeStr a) (hb : SafeStr b) :
    SafeStr (a ++ b) := by
  induction ha with
  | nil => exact hb
  | chr hc _ ih => exact SafeStr.chr hc ih
  | tagb _ ih => exact SafeStr.tagb ih
  | tagbe _ ih => exact SafeStr.tagbe ih
  | tagbr _ ih => exact SafeStr.tagbr ih

lemma safeStr_tail {c : Char} {rest : List Char} (h : SafeStr (c :: rest))
    (hc : c ≠ '<') : SafeStr rest := by
  cases h with
  | chr _ hrest => exact hrest
  | tagb hrest => exact absurd rfl hc
  | tagbe hrest => exact absurd rfl hc
  | tagbr hrest => exact absurd rfl hc

lemma safeStr_drop : ∀ (k : Nat) (l : List Char), SafeStr l →
    (∀ c ∈ l.take k, c ≠ '<') → SafeStr (l.drop k) := by
  intro k
  induction k with
  | zero => intro l h _; simpa using h
  | succ k ih =>
    intro l h ht
    cases l with
    | nil => exact SafeStr.nil
    | cons c rest =>
      simp only [List.take_succ_cons] at ht
      have hc : c ≠ '<' := ht c (List.mem_cons_self _ _)
      exact ih rest (safeStr_tail h hc) (fun d hd => ht d (List.mem_cons_of_mem _ hd))

lemma isPrefixOf_take {pat l : List Char} (h : pat.isPrefixOf l = true) :
    l.take pat.length = pat := by
  have hp : pat <+: l := List.isPrefixOf_iff_prefix.mp h
  exact (List.prefix_iff_eq_take.mp hp).symm

/-- Replacing a pattern that opens with a character `h0` foreign both to `<`
and to every tag character, by an allow-listed tag, preserves `SafeStr`. -/
lemma replaceAll_safe (pat rep : List Char) (h0 : Char)
    (hhead : pat.head? = some h0)
    (hplt : ∀ c ∈ pat, c ≠ '<')
    (h0tag : h0 ≠ '<' ∧ h0 ≠ 'b' ∧ h0 ≠ '>' ∧ h0 ≠ '/' ∧ h0 ≠ 'r')
    (hrep : SafeStr rep) :
    ∀ n l, l.length ≤ n → SafeStr l → SafeStr (replaceAll pat rep l) := by
  intro n
  induction n with
  | zero =>
    intro l hl _
    have : l = [] := List.eq_nil_of_length_eq_zero (Nat.le_zero.mp hl)
    subst this
    exact SafeStr.nil
  | succ n ih =>
    intro l hl hsafe
    cases l with
    | nil => exact SafeStr.nil
    | cons c rest =>
      simp only [List.length_cons] at hl
      by_cases hm : pat ≠ [] ∧ pat.isPrefixOf (c :: rest)
      · rw [replaceAll_cons_match rep hm.1 hm.2]
        have hp : 1 ≤ pat.length := by
          cases pat with
          | nil => exact absurd rfl hm.1
          | cons a as => simp
        have htake : (c :: rest).take pat.length = pat := isPrefixOf_take hm.2
        have hdropSafe : SafeStr ((c :: rest).drop pat.length) := by
          apply safeStr_drop _ _ hsafe
          intro d hd
          rw [htake] at hd
          exact hplt d hd
        have hdlen : ((c :: rest).drop pat.length).length ≤ n := by
          simp only [List.length_drop, List.length_cons]
          omega
        exact safeStr_append hrep (ih _ hdlen hdropSafe)
      · by_cases hc : c = '<'
        · subst hc
          cases hsafe with
          | chr hne _ => exact absurd rfl hne
          | @tagb rest₂ hrest =>
            have hskip := replaceAll_skip rep hhead ['<', 'b', '>'] rest₂
              (by
                intro d hd hdh
                subst hdh
                simp only [List.mem_cons, List.not_mem_nil, or_false] at hd
                rcases hd with h | h | h
                · exact h0tag.1 h
                · exact h0tag.2.1 h
                · exact h0tag.2.2.1 h)
            have hskip' : replaceAll pat rep ('<' :: 'b' :: '>' :: rest₂) =
                ['<', 'b', '>'] ++ replaceAll pat rep rest₂ := hskip
            rw [hskip']
            exact safeStr_append (SafeStr.tagb SafeStr.nil)
              (ih _ (by simp only [List.length_cons] at hl ⊢; omega) hrest)
          | @tagbe rest₂ hrest =>
            have hskip := replaceAll_skip rep hhead ['<', '/', 'b', '>'] rest₂
              (by
                intro d hd hdh
                subst hdh
                simp only [List.mem_cons, List.not_mem_nil, or_false] at hd
                rcases hd with h | h | h | h
                · exact h0tag.1 h
                · exact h0tag.2.2.2.1 h
                · exact h0tag.2.1 h
                · exact h0tag.2.2.1 h)
            have hskip' : replaceAll pat rep ('<' :: '/' :: 'b' :: '>' :: rest₂) =
                ['<', '/', 'b', '>'] ++ replaceAll pat rep rest₂ := hskip
            rw [hskip']
            exact safeStr_append (SafeStr.tagbe SafeStr.nil)
              (ih _ (by simp only [List.length_cons] at hl ⊢; omega) hrest)
          | @tagbr rest₂ hrest =>
            have hskip := replaceAll_skip rep hhead ['<', 'b', 'r', '/', '>'] rest₂
              (by
                intro d hd hdh
                subst hdh
                simp only [List.mem_cons, List.not_mem_nil, or_false] at hd
                rcases hd with h | h | h | h | h
                · exact h0tag.1 h
                · exact h0tag.2.1 h
                · exact h0tag.2.2.2.2 h
                · exact h0tag.2.2.2.1 h
                · exact h0tag.2.2.1 h)
            have hskip' : replaceAll pat rep ('<' :: 'b' :: 'r' :: '/' :: '>' :: rest₂) =
                ['<', 'b', 'r', '/', '>'] ++ replaceAll pat rep rest₂ := hskip
            rw [hskip']
            exact safeStr_append (SafeStr.tagbr SafeStr.nil)
              (ih _ (by simp only [List.length_cons] at hl ⊢; omega) hrest)
        · rw [replaceAll_cons_nomatch rep hm]
          exact SafeStr.chr hc (ih rest (by omega) (safeStr_tail hsafe hc))

lemma escapeChar_no_angle (c : Char) : ∀ d ∈ escapeChar c, d ≠ '<' ∧ d ≠ '>' := by
  unfold escapeChar
  split_ifs with h1 h2 h3
  · decide
  · decide
  · decide
  · intro d hd
    simp only [List.mem_singleton] at hd
    subst hd
    exact ⟨h2, h3⟩

lemma escapeL_no_angle : ∀ l : List Char, ∀ d ∈ escapeL l, d ≠ '<' ∧ d ≠ '>' := by
  intro l
  induction l with
  | nil => intro d hd; simp [escapeL] at hd
  | cons c rest ih =>
    intro d hd
    simp only [escapeL, List.map_cons, List.flatten_cons, List.mem_append] at hd
    rcases hd with h | h
    · exact escapeChar_no_angle c d h
    · exact ih d h

/-- Every output of the `safe_para` pipeline is free of structural markup
beyond the three allow-listed tags. -/
lemma safeParaL_safe (l : List Char) : SafeStr (safeParaL l) := by
  unfold safeParaL newlineToBr restoreAllow
  have hbr : SafeStr "<br/>".data := SafeStr.tagbr SafeStr.nil
  have h0 : SafeStr (escapeL l) :=
    safeStr_of_no_lt _ (fun d hd => (escapeL_no_angle l d hd).1)
  have h1 := replaceAll_safe "&lt;b&gt;".data "<b>".data '&' rfl (by decide) (by decide)
    (SafeStr.tagb SafeStr.nil) _ _ (Nat.le_refl _) h0
  have h2 := replaceAll_safe "&lt;/b&gt;".data "</b>".data '&' rfl (by decide) (by decide)
    (SafeStr.tagbe SafeStr.nil) _ _ (Nat.le_refl _) h1
  have h3 := replaceAll_safe "&lt;br/&gt;".data "<br/>".data '&' rfl (by decide)
    (by decide) hbr _ _ (Nat.le_refl _) h2
  have h4 := replaceAll_safe "&lt;br&gt;".data "<br/>".data '&' rfl (by decide)
    (by decide) hbr _ _ (Nat.le_refl _) h3
  exact replaceAll_safe ['\n'] "<br/>".data '\n' rfl (by decide) (by decide) hbr
    _ _ (Nat.le_refl _) h4

lemma ltOkF_of_safeStr {l : List Char} (h : SafeStr l) :
    ∀ fuel, l.length ≤ fuel → ltOkF fuel l = true := by
  induction h with
  | nil => intro fuel _; cases fuel <;> rfl
  | @chr c rest hc _ ih =>
    intro fuel hl
    cases fuel with
    | zero => simp at hl
    | succ f =>
      simp only [List.length_cons] at hl
      simp only [ltOkF, if_neg hc]
      exact ih f (by omega)
  | @tagb rest _ ih =>
    intro fuel hl
    cases fuel with
    | zero => simp at hl
    | succ f =>
      simp only [List.length_cons] at hl
      show ltOkF f rest = true
      exact ih f (by omega)
  | @tagbe rest _ ih =>
    intro fuel hl
    cases fuel with
    | zero => simp at hl
    | succ f =>
      simp only [List.length_cons] at hl
      show ltOkF f rest = true
      exact ih f (by omega)
  | @tagbr rest _ ih =>
    intro fuel hl
    cases fuel with
    | zero => simp at hl
    | succ f =>
      simp only [List.length_cons] at hl
      show ltOkF f rest = true
      exact ih f (by omega)

lemma ltOk_safeParaL (l : List Char) : ltOk (safeParaL l) = true :=
  ltOkF_of_safeStr (safeParaL_safe l) _ (Nat.le_refl _)

/-! ## `safe_para` leaves formatted numbers untouched -/

def digitChars : List Char := ['0', '1', '2', '3', '4', '5', '6', '7', '8', '9']

def moneyChars : List Char := '-' :: ',' :: '.' :: digitChars

lemma digitChar_mem (d : Nat) : digitChar d ∈ digitChars := by
  have h : d % 10 = 0 ∨ d % 10 = 1 ∨ d % 10 = 2 ∨ d % 10 = 3 ∨ d % 10 = 4 ∨ d % 10 = 5 ∨
      d % 10 = 6 ∨ d % 10 = 7 ∨ d % 10 = 8 ∨ d % 10 = 9 := by omega
  show Char.ofNat (48 + d % 10) ∈ digitChars
  rcases h with h | h | h | h | h | h | h | h | h | h <;> rw [h] <;> decide

lemma natDigitsAux_chars :
    ∀ (fuel n : Nat) (acc : List Char), (∀ c ∈ acc, c ∈ digitChars) →
      ∀ c ∈ natDigitsAux fuel n acc, c ∈ digitChars := by
  intro fuel
  induction fuel with
  | zero =>
    intro n acc h c hc
    exact h c hc
  | succ f ih =>
    intro n acc h c hc
    cases n with
    | zero => exact h c hc
    | succ m =>
      refine ih _ _ ?_ c hc
      intro d hd
      rcases List.mem_cons.mp hd with h' | h'
      · exact h' ▸ digitChar_mem _
      · exact h d h'

lemma natDigits_chars (n : Nat) : ∀ c ∈ natDigits n, c ∈ digitChars := by
  unfold natDigits
  split_ifs
  · decide
  · exact natDigitsAux_chars n n [] (by intro c hc; simp at hc)

lemma commaGroupRev_chars_aux :
    ∀ (n : Nat) (l : List Char), l.length ≤ n →
      ∀ c ∈ commaGroupRev l, c ∈ l ∨ c = ',' := by
  intro n
  induction n with
  | zero =>
    intro l hl c hc
    have : l = [] := List.eq_nil_of_length_eq_zero (Nat.le_zero.mp hl)
    subst this
    simp [commaGroupRev] at hc
  | succ n ih =>
    intro l hl c hc
    match l, hc with
    | [], hc => simp [commaGroupRev] at hc
    | [d1], hc => exact Or.inl hc
    | [d1, d2], hc => exact Or.inl hc
    | [d1, d2, d3], hc => exact Or.inl hc
    | d1 :: d2 :: d3 :: d4 :: rest, hc =>
      have hc' : c ∈ d1 :: d2 :: d3 :: ',' :: commaGroupRev (d4 :: rest) := hc
      simp only [List.mem_cons] at hc' ⊢
      rcases hc' with h | h | h | h | h
      · exact Or.inl (Or.inl h)
      · exact Or.inl (Or.inr (Or.inl h))
      · exact Or.inl (Or.inr (Or.inr (Or.inl h)))
      · exact Or.inr h
      · have hlen : (d4 :: rest).length ≤ n := by
          simp only [List.length_cons] at hl ⊢
          omega
        rcases ih (d4 :: rest) hlen c h with h' | h'
        · simp only [List.mem_cons] at h'
          rcases h' with h'' | h''
          · exact Or.inl (Or.inr (Or.inr (Or.inr (Or.inl h''))))
          · exact Or.inl (Or.inr (Or.inr (Or.inr (Or.inr h''))))
        · exact Or.inr h'

lemma commaGroupRev_chars (l : List Char) :
    ∀ c ∈ commaGroupRev l, c ∈ l ∨ c = ',' :=
  commaGroupRev_chars_aux l.length l (Nat.le_refl _)

lemma moneyCore_chars (cents : Nat) : ∀ c ∈ moneyCore cents, c ∈ moneyChars := by
  intro c hc
  unfold moneyCore at hc
  simp only [List.mem_append, List.mem_reverse, List.mem_cons, List.not_mem_nil,
    or_false] at hc
  rcases hc with h | h | h | h
  · rcases commaGroupRev_chars _ c h with h' | h'
    · rw [List.mem_reverse] at h'
      have := natDigits_chars _ c h'
      simp only [moneyChars, List.mem_cons]
      exact Or.inr (Or.inr (Or.inr this))
    · simp [moneyChars, h']
  · simp [moneyChars, h]
  · have := digitChar_mem (cents % 100 / 10)
    simp only [moneyChars, List.mem_cons]
    exact Or.inr (Or.inr (Or.inr (h ▸ this)))
  · have := digitChar_mem (cents % 100 % 10)
    simp only [moneyChars, List.mem_cons]
    exact Or.inr (Or.inr (Or.inr (h ▸ this)))

lemma moneyData_chars (x : PyFloat) : ∀ c ∈ moneyData x, c ∈ moneyChars := by
  intro c hc
  unfold moneyData at hc
  simp only [List.mem_append] at hc
  rcases hc with h | h
  · split at h
    · simp only [List.mem_singleton] at h
      simp [moneyChars, h]
    · simp at h
  · exact moneyCore_chars _ c h

lemma escapeChar_eq_self {c : Char} (h : c ≠ '&' ∧ c ≠ '<' ∧ c ≠ '>') :
    escapeChar c = [c] := by
  unfold escapeChar
  rw [if_neg h.1, if_neg h.2.1, if_neg h.2.2]

lemma escapeL_eq_self (l : List Char) (h : ∀ c ∈ l, c ≠ '&' ∧ c ≠ '<' ∧ c ≠ '>') :
    escapeL l = l := by
  induction l with
  | nil => rfl
  | cons c rest ih =>
    simp only [escapeL, List.map_cons, List.flatten_cons]
    rw [escapeChar_eq_self (h c (List.mem_cons_self _ _))]
    simp only [List.singleton_append, List.cons.injEq, true_and]
    exact ih fun d hd => h d (List.mem_cons_of_mem _ hd)

lemma moneyChars_free :
    ∀ c ∈ moneyChars, c ≠ '&' ∧ c ≠ '<' ∧ c ≠ '>' ∧ c ≠ '\n' := by decide

/-- `safe_para` is the identity on formatted money strings: they contain no
markup-special character, no allow-list marker and no newline. -/
lemma safe_para_money (x : PyFloat) : safe_para (money x) = money x := by
  have hchars : ∀ c ∈ moneyData x, c ≠ '&' ∧ c ≠ '<' ∧ c ≠ '>' ∧ c ≠ '\n' :=
    fun c hc => moneyChars_free c (moneyData_chars x c hc)
  have hdata : (money x).data = moneyData x := rfl
  unfold safe_para safeParaL newlineToBr restoreAllow
  rw [hdata, escapeL_eq_self _ (fun c hc => ⟨(hchars c hc).1, (hchars c hc).2.1,
    (hchars c hc).2.2.1⟩)]
  rw [replaceAll_eq_self "&lt;b&gt;".data "<b>".data '&' rfl
    (moneyData x) (fun c hc => (hchars c hc).1)]
  rw [replaceAll_eq_self "&lt;/b&gt;".data "</b>".data '&' rfl
    (moneyData x) (fun c hc => (hchars c hc).1)]
  rw [replaceAll_eq_self "&lt;br/&gt;".data "<br/>".data '&' rfl
    (moneyData x) (fun c hc => (hchars c hc).1)]
  rw [replaceAll_eq_self "&lt;br&gt;".data "<br/>".data '&' rfl
    (moneyData x) (fun c hc => (hchars c hc).1)]
  rw [replaceAll_eq_self ['\n'] "<br/>".data '\n' rfl
    (moneyData x) (fun c hc => (hchars c hc).2.2.2)]
  rfl

/-! ## Lemmas about the record store -/

/-- The last log line carrying both keys and the given id (the record that
wins the `items_by_id` fold). -/
def lastById (rows : List PRow) (i : String) : Option PRow :=
  rows.foldl
    (fun acc r => if r.id = some i ∧ r.ptype.isSome then some r else acc) Option.none

lemma lastById_foldl_acc (i : String) : ∀ (rows : List PRow) (acc : Option PRow),
    rows.foldl
        (fun a r => if r.id = some i ∧ r.ptype.isSome then some r else a) acc =
      match lastById rows i with
      | some r => some r
      | Option.none => acc := by
  intro rows
  induction rows with
  | nil => intro acc; simp [lastById]
  | cons r rs ih =>
    intro acc
    show List.foldl _ (if r.id = some i ∧ r.ptype.isSome then some r else acc) rs = _
    rw [ih]
    have hrr : lastById (r :: rs) i =
        List.foldl (fun a x => if x.id = some i ∧ x.ptype.isSome then some x else a)
          (if r.id = some i ∧ r.ptype.isSome then some r else Option.none) rs := rfl
    rw [hrr, ih]
    cases hl : lastById rs i with
    | some r' => rfl
    | none =>
      by_cases hc : r.id = some i ∧ r.ptype.isSome
      · rw [if_pos hc, if_pos hc]
      · rw [if_neg hc, if_neg hc]

lemma lastById_cons (r : PRow) (rs : List PRow) (i : String) :
    lastById (r :: rs) i =
      match lastById rs i with
      | some r' => some r'
      | Option.none =>
        if r.id = some i ∧ r.ptype.isSome then some r else Option.none := by
  show List.foldl _ (if r.id = some i ∧ r.ptype.isSome then some r else Option.none) rs = _
  rw [lastById_foldl_acc]

lemma lastById_append_single (rows : List PRow) (x : PRow) (i : String) :
    lastById (rows ++ [x]) i =
      if x.id = some i ∧ x.ptype.isSome then some x
      else lastById rows i := by
  show List.foldl _ Option.none (rows ++ [x]) = _
  rw [List.foldl_append]
  show (if x.id = some i ∧ x.ptype.isSome then some x else lastById rows i) = _
  rfl

lemma lookupId_dictInsert_self : ∀ (m : List (String × PRow)) (k : String) (v : PRow),
    lookupId (dictInsert m k v) k = some v := by
  intro m k v
  induction m with
  | nil => simp [dictInsert, lookupId, List.find?_cons]
  | cons kv rest ih =>
    by_cases h : kv.1 = k
    · simp [dictInsert, if_pos h, lookupId, List.find?_cons]
    · simp only [dictInsert, if_neg h]
      simp only [lookupId, List.find?_cons] at ih ⊢
      rw [show (decide (kv.1 = k)) = false from decide_eq_false h]
      exact ih

lemma lookupId_dictInsert_other {k' k : String} (hne : k' ≠ k) :
    ∀ (m : List (String × PRow)) (v : PRow),
      lookupId (dictInsert m k v) k' = lookupId m k' := by
  intro m v
  induction m with
  | nil =>
    simp only [dictInsert, lookupId, List.find?_cons, List.find?_nil]
    rw [show (decide (k = k')) = false from decide_eq_false (fun h => hne h.symm)]
  | cons kv rest ih =>
    by_cases h : kv.1 = k
    · simp only [dictInsert, if_pos h, lookupId, List.find?_cons]
      rw [show (decide (k = k')) = false from decide_eq_false (fun hh => hne hh.symm),
        show (decide (kv.1 = k')) = false from decide_eq_false (h ▸ fun hh => hne hh.symm)]
    · simp only [dictInsert, if_neg h, lookupId, List.find?_cons] at ih ⊢
      cases hd : decide (kv.1 = k') with
      | true => rfl
      | false => exact ih

lemma mem_dictInsert : ∀ (m : List (String × PRow)) (k : String) (v : PRow)
    (kv : String × PRow), kv ∈ dictInsert m k v → kv ∈ m ∨ kv = (k, v) := by
  intro m k v kv
  induction m with
  | nil =>
    intro h
    simp only [dictInsert, List.mem_singleton] at h
    exact Or.inr h
  | cons kv' rest ih =>
    intro h
    by_cases hk : kv'.1 = k
    · simp only [dictInsert, if_pos hk, List.mem_cons] at h
      rcases h with h | h
      · exact Or.inr h
      · exact Or.inl (List.mem_cons_of_mem _ h)
    · simp only [dictInsert, if_neg hk, List.mem_cons] at h
      rcases h with h | h
      · exact Or.inl (h ▸ List.mem_cons_self _ _)
      · rcases ih h with h' | h'
        · exact Or.inl (List.mem_cons_of_mem _ h')
        · exact Or.inr h'

lemma itemsByIdAux_inv : ∀ (rows : List PRow) (m : List (String × PRow)),
    (∀ kv ∈ m, kv.2.id = some kv.1 ∧ kv.2.ptype.isSome = true) →
    ∀ kv ∈ itemsByIdAux m rows, kv.2.id = some kv.1 ∧ kv.2.ptype.isSome = true := by
  intro rows
  induction rows with
  | nil => intro m hm kv hkv; exact hm kv hkv
  | cons r rs ih =>
    intro m hm kv hkv
    simp only [itemsByIdAux] at hkv
    by_cases hc : r.id.isSome ∧ r.ptype.isSome
    · rw [if_pos hc] at hkv
      refine ih _ ?_ kv hkv
      intro kv' hkv'
      rcases mem_dictInsert _ _ _ _ hkv' with h | h
      · exact hm kv' h
      · subst h
        obtain ⟨j, hj⟩ := Option.isSome_iff_exists.mp hc.1
        refine ⟨?_, hc.2⟩
        simp [hj]
    · rw [if_neg hc] at hkv
      exact ih _ hm kv hkv

lemma keys_dictInsert : ∀ (m : List (String × PRow)) (k : String) (v : PRow),
    (dictInsert m k v).map Prod.fst =
      if k ∈ m.map Prod.fst then m.map Prod.fst else m.map Prod.fst ++ [k] := by
  intro m k v
  induction m with
  | nil => simp [dictInsert]
  | cons kv rest ih =>
    by_cases h : kv.1 = k
    · simp [dictInsert, if_pos h, h]
    · simp only [dictInsert, if_neg h, List.map_cons, ih, List.mem_cons]
      by_cases hk : k ∈ rest.map Prod.fst
      · rw [if_pos hk, if_pos (Or.inr hk)]
      · rw [if_neg hk, if_neg ?_]
        · simp
        · intro hor
          rcases hor with h' | h'
          · exact h h'.symm
          · exact hk h'

lemma nodup_keys_dictInsert {m : List (String × PRow)} (k : String) (v : PRow)
    (h : (m.map Prod.fst).Nodup) : ((dictInsert m k v).map Prod.fst).Nodup := by
  rw [keys_dictInsert]
  by_cases hk : k ∈ m.map Prod.fst
  · rw [if_pos hk]; exact h
  · rw [if_neg hk]
    rw [List.nodup_append]
    exact ⟨h, List.nodup_singleton _, by simpa using hk⟩

lemma nodup_keys_itemsByIdAux : ∀ (rows : List PRow) (m : List (String × PRow)),
    (m.map Prod.fst).Nodup → ((itemsByIdAux m rows).map Prod.fst).Nodup := by
  intro rows
  induction rows with
  | nil => intro m hm; exact hm
  | cons r rs ih =>
    intro m hm
    simp only [itemsByIdAux]
    by_cases hc : r.id.isSome ∧ r.ptype.isSome
    · rw [if_pos hc]
      exact ih _ (nodup_keys_dictInsert _ _ hm)
    · rw [if_neg hc]
      exact ih _ hm

lemma lookupId_of_mem : ∀ (m : List (String × PRow)) (k : String) (v : PRow),
    (m.map Prod.fst).Nodup → (k, v) ∈ m → lookupId m k = some v := by
  intro m k v
  induction m with
  | nil => intro _ h; simp at h
  | cons kv rest ih =>
    intro hnd hmem
    simp only [List.map_cons, List.nodup_cons] at hnd
    rcases List.mem_cons.mp hmem with h | h
    · subst h
      simp [lookupId, List.find?_cons]
    · by_cases hk : kv.1 = k
      · exfalso
        apply hnd.1
        rw [hk]
        exact List.mem_map.mpr ⟨(k, v), h, rfl⟩
      · simp only [lookupId, List.find?_cons] at ih ⊢
        rw [show (decide (kv.1 = k)) = false from decide_eq_false hk]
        exact ih hnd.2 h

lemma mem_of_lookupId {m : List (String × PRow)} {k : String} {v : PRow}
    (h : lookupId m k = some v) : (k, v) ∈ m := by
  simp only [lookupId, Option.map_eq_some'] at h
  obtain ⟨kv, hfind, hv⟩ := h
  have hmem := List.mem_of_find?_eq_some hfind
  have hp := List.find?_some hfind
  simp only [decide_eq_true_eq] at hp
  have : kv = (k, v) := by
    cases kv
    simp only at hp hv
    simp [hp, hv]
  exact this ▸ hmem

lemma lookupId_itemsByIdAux (i : String) : ∀ (rows : List PRow) (m : List (String × PRow)),
    lookupId (itemsByIdAux m rows) i =
      match lastById rows i with
      | some r => some r
      | Option.none => lookupId m i := by
  intro rows
  induction rows with
  | nil => intro m; simp [itemsByIdAux, lastById]
  | cons r rs ih =>
    intro m
    simp only [itemsByIdAux]
    rw [lastById_cons]
    cases hl : lastById rs i with
    | some r' =>
      by_cases hc : r.id.isSome ∧ r.ptype.isSome
      · rw [if_pos hc, ih, hl]
      · rw [if_neg hc, ih, hl]
    | none =>
      by_cases hci : r.id = some i ∧ r.ptype.isSome
      · have hc : r.id.isSome ∧ r.ptype.isSome := ⟨by simp [hci.1], hci.2⟩
        rw [if_pos hc, ih, hl]
        have hgd : r.id.getD "" = i := by simp [hci.1]
        rw [hgd]
        simp only [if_pos hci]
        exact lookupId_dictInsert_self m i r
      · by_cases hc : r.id.isSome ∧ r.ptype.isSome
        · obtain ⟨j, hj⟩ := Option.isSome_iff_exists.mp hc.1
          have hji : j ≠ i := by
            intro hji
            exact hci ⟨by rw [hj, hji], hc.2⟩
          rw [if_pos hc, ih, hl]
          have hgd : r.id.getD "" = j := by simp [hj]
          rw [hgd]
          simp only [if_neg hci]
          exact lookupId_dictInsert_other (fun h => hji h.symm) m r
        · rw [if_neg hc, ih, hl]
          simp only [if_neg hci]

lemma findGroup_cons_hit {kv : String × List PRow} {rest : List (String × List PRow)}
    {t : String} (h : kv.1 = t) : findGroup (kv :: rest) t = kv.2 := by
  simp only [findGroup, List.find?_cons]
  rw [show (decide (kv.1 = t)) = true from decide_eq_true h]
  rfl

lemma findGroup_cons_miss {kv : String × List PRow} {rest : List (String × List PRow)}
    {t : String} (h : kv.1 ≠ t) : findGroup (kv :: rest) t = findGroup rest t := by
  simp only [findGroup, List.find?_cons]
  rw [show (decide (kv.1 = t)) = false from decide_eq_false h]

lemma findGroup_appendGroup : ∀ (g : List (String × List PRow)) (t' : String) (x : PRow)
    (t : String), findGroup (appendGroup g t' x) t =
      if t' = t then findGroup g t ++ [x] else findGroup g t := by
  intro g t' x t
  induction g with
  | nil =>
    have hred : appendGroup [] t' x = [(t', [x])] := rfl
    rw [hred]
    by_cases h : t' = t
    · rw [if_pos h, findGroup_cons_hit (show (t', [x]).1 = t from h)]
      simp [findGroup]
    · rw [if_neg h, findGroup_cons_miss (show (t', [x]).1 ≠ t from h)]
  | cons kv rest ih =>
    by_cases hk : kv.1 = t'
    · have hred : appendGroup (kv :: rest) t' x = (kv.1, kv.2 ++ [x]) :: rest := by
        simp only [appendGroup, if_pos hk]
      rw [hred]
      by_cases ht : kv.1 = t
      · rw [findGroup_cons_hit (show (kv.1, kv.2 ++ [x]).1 = t from ht),
          if_pos (hk ▸ ht), findGroup_cons_hit ht]
      · rw [findGroup_cons_miss (show (kv.1, kv.2 ++ [x]).1 ≠ t from ht),
          if_neg (fun he => ht (hk.trans he)), findGroup_cons_miss ht]
    · have hred : appendGroup (kv :: rest) t' x = kv :: appendGroup rest t' x := by
        simp only [appendGroup, if_neg hk]
      rw [hred]
      by_cases ht : kv.1 = t
      · have hne : t' ≠ t := fun he => hk (ht ▸ he ▸ rfl)
        rw [findGroup_cons_hit ht, if_neg hne, findGroup_cons_hit ht]
      · rw [findGroup_cons_miss ht, ih]
        by_cases he : t' = t
        · rw [if_pos he, if_pos he, findGroup_cons_miss ht]
        · rw [if_neg he, if_neg he, findGroup_cons_miss ht]

lemma findGroup_groupItems : ∀ (items : List PRow) (g : List (String × List PRow))
    (t : String), findGroup (groupItems g items) t =
      findGroup g t ++
        items.filter (fun r => !r.deleted && (r.ptype.getD "" == t)) := by
  intro items
  induction items with
  | nil => intro g t; simp [groupItems]
  | cons r rs ih =>
    intro g t
    simp only [groupItems]
    by_cases hd : r.deleted
    · rw [if_pos hd, ih]
      rw [List.filter_cons]
      rw [show (!r.deleted && (r.ptype.getD "" == t)) = false by simp [hd]]
      simp
    · rw [if_neg hd, ih, findGroup_appendGroup, List.filter_cons]
      by_cases ht : r.ptype.getD "" = t
      · rw [if_pos ht]
        rw [show (!r.deleted && (r.ptype.getD "" == t)) = true by
          simp only [Bool.and_eq_true, Bool.not_eq_true', beq_iff_eq]
          exact ⟨by simp [hd], ht⟩]
        simp
      · rw [if_neg ht]
        rw [show (!r.deleted && (r.ptype.getD "" == t)) = false by
          simp only [Bool.and_eq_false_iff, Bool.not_eq_false', beq_eq_false_iff_ne]
          exact Or.inr ht]
        simp

lemma mem_insertSorted (x a : PRow) : ∀ l : List PRow,
    a ∈ insertSorted x l ↔ a = x ∨ a ∈ l := by
  intro l
  induction l with
  | nil => simp [insertSorted]
  | cons y ys ih =>
    simp only [insertSorted]
    by_cases h : profileSortKey x ≤ profileSortKey y
    · rw [if_pos h]
      simp [List.mem_cons]
    · rw [if_neg h]
      simp only [List.mem_cons, ih]
      tauto

lemma mem_sortProfiles (a : PRow) : ∀ l : List PRow, a ∈ sortProfiles l ↔ a ∈ l := by
  intro l
  induction l with
  | nil => simp [sortProfiles]
  | cons x xs ih =>
    simp only [sortProfiles, mem_insertSorted, ih, List.mem_cons]

lemma findGroup_mapSort : ∀ (g : List (String × List PRow)) (t : String),
    findGroup (g.map (fun kv => (kv.1, sortProfiles kv.2))) t =
      sortProfiles (findGroup g t) := by
  intro g t
  induction g with
  | nil => simp [findGroup, sortProfiles]
  | cons kv rest ih =>
    simp only [List.map_cons, findGroup, List.find?_cons] at ih ⊢
    by_cases h : kv.1 = t
    · rw [show (decide (kv.1 = t)) = true from decide_eq_true h]
      simp
    · rw [show (decide (kv.1 = t)) = false from decide_eq_false h]
      exact ih

lemma findGroup_init (t : String) :
    findGroup [("provider", []), ("recipient", []), ("payment_method", [])] t = [] := by
  simp only [findGroup, List.find?_cons, List.find?_nil]
  cases h1 : decide ("provider" = t) <;> cases h2 : decide ("recipient" = t) <;>
    cases h3 : decide ("payment_method" = t) <;> simp

/-- Membership characterisation of `load_profiles`: a record is in a group
exactly when it is a surviving `items_by_id` value of matching type. -/
lemma mem_load_profiles (seed loc : List PRow) (t : String) (r : PRow) :
    r ∈ findGroup (load_profiles (some seed) (some loc)) t ↔
      r ∈ (items_by_id (seed ++ loc)).map Prod.snd ∧
        r.deleted = false ∧ r.ptype.getD "" = t := by
  unfold load_profiles
  rw [findGroup_mapSort, findGroup_groupItems, findGroup_init, mem_sortProfiles]
  simp only [List.nil_append, List.mem_filter, Bool.and_eq_true, Bool.not_eq_true',
    beq_iff_eq]
  unfold read_jsonl
  simp only [Option.getD_some]

lemma lookupId_items_by_id (rows : List PRow) (i : String) :
    lookupId (items_by_id rows) i = lastById rows i := by
  unfold items_by_id
  rw [lookupId_itemsByIdAux]
  cases lastById rows i with
  | some r => rfl
  | none => rfl

lemma load_profiles_id_unique (seed loc : List PRow) (i t : String) (r : PRow)
    (hmem : r ∈ findGroup (load_profiles (some seed) (some loc)) t)
    (hid : r.id = some i) :
    lastById (seed ++ loc) i = some r ∧ r.deleted = false := by
  rw [mem_load_profiles] at hmem
  obtain ⟨hval, hdel, _⟩ := hmem
  obtain ⟨kv, hkv, hkv2⟩ := List.mem_map.mp hval
  have hinv := itemsByIdAux_inv (seed ++ loc) [] (by simp) kv hkv
  have hkey : kv.1 = i := by
    rw [hkv2] at hinv
    rw [hinv.1] at hid
    exact (Option.some.injEq _ _).mp hid
  have hkv' : (i, r) ∈ items_by_id (seed ++ loc) := by
    have : kv = (i, r) := by
      cases kv
      simp only at hkey hkv2
      rw [hkey, hkv2]
    exact this ▸ hkv
  have hnodup : ((items_by_id (seed ++ loc)).map Prod.fst).Nodup :=
    nodup_keys_itemsByIdAux (seed ++ loc) [] (by simp)
  have hlook := lookupId_of_mem (items_by_id (seed ++ loc)) i r hnodup hkv'
  rw [lookupId_items_by_id] at hlook
  exact ⟨hlook, hdel⟩

lemma load_profiles_present (seed loc : List PRow) (i : String) (last : PRow)
    (hlast : lastById (seed ++ loc) i = some last) (hdel : last.deleted = false) :
    last ∈ findGroup (load_profiles (some seed) (some loc)) (last.ptype.getD "") := by
  rw [mem_load_profiles]
  refine ⟨?_, hdel, rfl⟩
  have hlook : lookupId (items_by_id (seed ++ loc)) i = some last := by
    rw [lookupId_items_by_id]; exact hlast
  exact List.mem_map.mpr ⟨(i, last), mem_of_lookupId hlook, rfl⟩

/-! ## Lemmas about history pruning and loading -/

lemma pruneScan_aux (fs : String → Bool) : ∀ (items : List HEntry)
    (acc : List HEntry × Nat),
    items.foldl
        (fun acc e =>
          if keepEntry fs e then (acc.1 ++ [e], acc.2) else (acc.1, acc.2 + 1)) acc =
      (acc.1 ++ items.filter (keepEntry fs),
        acc.2 + (items.filter (fun e => !keepEntry fs e)).length) := by
  intro items
  induction items with
  | nil => intro acc; simp
  | cons e rest ih =>
    intro acc
    show List.foldl _ (if keepEntry fs e then (acc.1 ++ [e], acc.2) else (acc.1, acc.2 + 1))
      rest = _
    rw [ih]
    by_cases hk : keepEntry fs e
    · simp [List.filter_cons, hk]
    · have hkf : keepEntry fs e = false := by simpa using hk
      rw [if_neg hk]
      simp only [List.filter_cons, hkf, Bool.not_false, Bool.false_eq_true, if_false,
        if_true, List.length_cons, Prod.mk.injEq]
      exact ⟨by trivial, by omega⟩

lemma pruneScan_spec (fs : String → Bool) (items : List HEntry) :
    pruneScan fs items =
      (items.filter (keepEntry fs),
        (items.filter (fun e => !keepEntry fs e)).length) := by
  unfold pruneScan
  rw [pruneScan_aux]
  simp

lemma filter_length_split (p : HEntry → Bool) : ∀ l : List HEntry,
    (l.filter p).length + (l.filter (fun e => !p e)).length = l.length := by
  intro l
  induction l with
  | nil => rfl
  | cons e rest ih =>
    rw [List.filter_cons, List.filter_cons]
    by_cases hp : p e
    · simp only [hp, Bool.not_true, Bool.false_eq_true, if_true, if_false,
        List.length_cons]
      omega
    · simp only [show p e = false by simpa using hp, Bool.not_false,
        Bool.false_eq_true, if_true, if_false, List.length_cons]
      omega

lemma prune_result (fs : String → Bool) (items : List HEntry) :
    prune_missing_history_files fs items =
      (items.filter (keepEntry fs),
        items.length - (items.filter (keepEntry fs)).length) := by
  have hsum := filter_length_split (keepEntry fs) items
  unfold prune_missing_history_files
  rw [pruneScan_spec]
  by_cases h : (items.filter (fun e => !keepEntry fs e)).length = 0
  · have hall : items.filter (keepEntry fs) = items := by
      rw [List.filter_eq_self]
      intro a ha
      by_contra hcon
      have hmem : a ∈ items.filter (fun e => !keepEntry fs e) :=
        List.mem_filter.mpr ⟨ha, by simpa using hcon⟩
      rw [List.length_eq_zero.mp h] at hmem
      simp at hmem
    rw [if_neg (show ¬((items.filter (keepEntry fs),
        (items.filter (fun e => !keepEntry fs e)).length).2 ≠ 0) from by simpa using h)]
    rw [Prod.mk.injEq]
    refine ⟨hall.symm, ?_⟩
    show (items.filter (fun e => !keepEntry fs e)).length =
      items.length - (items.filter (keepEntry fs)).length
    omega
  · rw [if_pos (show ((items.filter (keepEntry fs),
        (items.filter (fun e => !keepEntry fs e)).length).2 ≠ 0) from by simpa using h)]
    rw [Prod.mk.injEq]
    refine ⟨rfl, ?_⟩
    show (items.filter (fun e => !keepEntry fs e)).length =
      items.length - (items.filter (keepEntry fs)).length
    omega

lemma prune_idempotent (fs : String → Bool) (items : List HEntry) :
    prune_missing_history_files fs (items.filter (keepEntry fs)) =
      (items.filter (keepEntry fs), 0) := by
  rw [prune_result]
  have hself : (items.filter (keepEntry fs)).filter (keepEntry fs) =
      items.filter (keepEntry fs) := by
    rw [List.filter_eq_self]
    intro a ha
    exact List.of_mem_filter ha
  rw [hself, Prod.mk.injEq]
  exact ⟨rfl, by omega⟩

lemma load_history_zero_eq (items : List HEntry) :
    load_history (some items) 0 = items.reverse := by
  unfold load_history read_jsonl pySliceFrom
  simp

lemma load_history_pos_eq (limit : Int) (h : 1 ≤ limit) (items : List HEntry) :
    load_history (some items) limit =
      (items.drop (items.length - limit.toNat)).reverse := by
  unfold load_history read_jsonl pySliceFrom
  rw [if_neg (by omega)]
  simp

lemma getLast?_drop {α : Type} : ∀ (l : List α) (k : Nat), k < l.length →
    (l.drop k).getLast? = l.getLast? := by
  intro l
  induction l with
  | nil => intro k hk; simp at hk
  | cons a t ih =>
    intro k hk
    cases k with
    | zero => rfl
    | succ k' =>
      simp only [List.length_cons] at hk
      have hk' : k' < t.length := by omega
      have ht : t ≠ [] := by
        intro he
        rw [he] at hk'
        simp at hk'
      rw [List.drop_succ_cons, ih k' hk']
      cases t with
      | nil => exact absurd rfl ht
      | cons b u => rw [List.getLast?_cons_cons]

/-! ## Concrete data used by witnesses and counterexamples -/

def provA : Party :=
  { display_name := "Alice Provider", address_lines := .list ["1 High St", "Town"],
    email := some "alice@example.com" }

def recipB : Party :=
  { display_name := "Bob Recipient", address_lines := .str "2 Low Rd",
    email := some "bob@example.com" }

def pmDom : PaymentMethod :=
  { label := some "Bank", method_type := some "bank_domestic",
    details := { account_holder := some "Alice P", bank_name := some "BankCo",
                 sort_code := some "12-34-56", account_number := some "12345678",
                 currency := some "GBP" } }

/-- A concrete invoice: rate 75.00, duration 1.5 h, invoice date 2026-02-21,
due in 7 days, client reference "Jane Doe", no explicit payment reference. -/
def invA : Invoice :=
  { session_start := ⟨⟨2026, 2, 21⟩, ⟨16 * 3600, 1⟩⟩
    session_duration_hours := pyFrac 3 2
    invoice_date := ⟨2026, 2, 21⟩
    due_days := some 7
    invoice_number := "2026-001"
    provider := provA
    recipient := recipB
    student_name := some "Jane Doe"
    rate_per_hour := some (pyFrac 75 1)
    prep_hours := some (pyFrac 1 2)
    prep_rate := some (pyFrac 20 1)
    payment_method := pmDom }

/-- Legacy payment method with a non-empty IBAN. -/
def pmLegacyIban : PaymentMethod :=
  { label := some "Old international", method_type := some "bank_transfer",
    details := { account_holder := some "A H", bank_name := some "BankCo",
                 sort_code := some "12-34-56", account_number := some "12345678",
                 iban := some "DE89370400440532013000", bic := some "COBADEFF",
                 currency := some "EUR" } }

/-- Legacy payment method with an empty IBAN but a stored BIC. -/
def pmLegacyNoIban : PaymentMethod :=
  { label := some "Old domestic", method_type := some "bank_transfer",
    details := { account_holder := some "A H", bank_name := some "BankCo",
                 sort_code := some "12-34-56", account_number := some "12345678",
                 iban := some "", bic := some "COBADEFF", currency := some "GBP" } }

def c2rowA : PRow :=
  { id := some "X", ptype := some "recipient", display_name := some "Ann",
    payload := [("email", "a@x")] }

def c2rowB : PRow :=
  { id := some "X", ptype := some "recipient", display_name := some "Ann",
    payload := [("email", "b@x")] }

def h1 : HEntry := { invoice_number := "inv-1", output_path := some "out/a.pdf" }

def h2 : HEntry := { invoice_number := "inv-2", output_path := some "out/b.pdf" }

def h3 : HEntry := { invoice_number := "inv-3", output_path := some "out/c.pdf" }

def hist3 : List HEntry := [h1, h2, h3]

/-- A file system on which exactly `out/b.pdf` is missing. -/
def fsB : String → Bool := fun p => p != "out/b.pdf"

/-! ## The claims -/

/-- C1: in `build_invoice_pdf`, the billed line amount is
`session_duration_hours * rate_per_hour`, the rendered billed-line amount,
subtotal and total all display that product, and the prep line's amount
renders as "0.00" for every invoice (hence for any prep hours and prep
rate); concretely rate 75.00 with 1.5 hours gives "112.50" in all three
places. -/
theorem C1_billed_amounts :
    (∀ inv : Invoice,
      (build_invoice_pdf inv).billed =
          inv.session_duration_hours * inv.rate_per_hour.getD 0 ∧
      ((build_invoice_pdf inv).itemRows.get? 1).bind (fun row => row.get? 3) =
          some (money ((build_invoice_pdf inv).billed)) ∧
      (build_invoice_pdf inv).subtotalCell = money ((build_invoice_pdf inv).billed) ∧
      (build_invoice_pdf inv).totalCell = money ((build_invoice_pdf inv).billed) ∧
      ((build_invoice_pdf inv).itemRows.get? 2).bind (fun row => row.get? 3) =
          some "0.00") ∧
    (build_invoice_pdf invA).billed = pyFrac 225 2 ∧
    ((build_invoice_pdf invA).itemRows.get? 1).bind (fun row => row.get? 3) =
        some "112.50" ∧
    (build_invoice_pdf invA).subtotalCell = "112.50" ∧
    (build_invoice_pdf invA).totalCell = "112.50" ∧
    ((build_invoice_pdf invA).itemRows.get? 2).bind (fun row => row.get? 3) =
        some "0.00" := by
  refine ⟨fun inv => ⟨rfl, ?_, ?_, ?_, ?_⟩, by decide, by decide, by decide, by decide,
    by decide⟩
  · show some (safe_para (money ((build_invoice_pdf inv).billed))) = _
    rw [safe_para_money]
  · show safe_para (money ((build_invoice_pdf inv).billed)) = _
    rw [safe_para_money]
  · show safe_para (money ((build_invoice_pdf inv).billed)) = _
    rw [safe_para_money]
  · show some (safe_para (money 0)) = some "0.00"
    rw [safe_para_money]
    decide

/-- C4: `safe_para` escapes first and restores the three allow-listed
sequences afterwards, then converts newlines; consequently every `<` of the
output opens an allow-listed tag (`ltOk`), markup-special characters in free
text render as escaped literals, and a deliberate bold marker survives. -/
theorem C4_safe_para_sanitisation :
    (∀ s : String, ltOk (safe_para s).data = true) ∧
    (∀ s : String, safe_para s = ⟨newlineToBr (restoreAllow (escapeL s.data))⟩) ∧
    safe_para "<b>Bill To:</b>\nTom & Jerry <3" =
      "<b>Bill To:</b><br/>Tom &amp; Jerry &lt;3" ∧
    safe_para "Amount <= 5 & more" = "Amount &lt;= 5 &amp; more" :=
  ⟨fun s => ltOk_safeParaL s.data, fun _ => rfl, by decide, by decide⟩

/-- C5: the due date of every invoice document is
`invoice_date + due_days` days (default 7) and is rendered in the metadata
grid; concretely 2026-02-21 plus 7 days is 2026-02-28. -/
theorem C5_due_date :
    (∀ inv : Invoice,
      (build_invoice_pdf inv).dueDate = addDays inv.invoice_date (inv.due_days.getD 7) ∧
      ((build_invoice_pdf inv).metaRows.get? 1).bind (fun row => row.get? 3) =
          some (fmt_date (addDays inv.invoice_date (inv.due_days.getD 7)))) ∧
    addDays ⟨2026, 2, 21⟩ 7 = ⟨2026, 2, 28⟩ ∧
    ((build_invoice_pdf invA).metaRows.get? 1).bind (fun row => row.get? 3) =
        some "28-02-2026" :=
  ⟨fun _ => ⟨rfl, rfl⟩, by decide, by decide⟩

/-- C7 counterexample: with no explicit reference, client reference
"Jane Doe" and session start 2026-02-21, the code produces
"Tut-JD-210226", which is not the claim's composition
tag ++ initials ++ ddmmyy (no separating hyphen): "Tut-JD210226". -/
theorem C7_counterexample :
    (build_invoice_pdf invA).reference = "Tut-JD-210226" ∧
    ¬((build_invoice_pdf invA).reference =
        "Tut-" ++ initials "Jane Doe" ++ fmtDDMMYY ⟨2026, 2, 21⟩) := by
  constructor
  · decide
  · decide

/-- Derived payment reference as the spec describes it, amended with the
hyphen the code inserts between the initials and the date. -/
def specDerivedReference (clientRef displayName : String) (d : PyDate) : String :=
  "Tut-" ++ initials (if pyStrip clientRef ≠ "" then clientRef else displayName) ++
    "-" ++ fmtDDMMYY d

/-- C7 (amended): a non-empty explicit reference is used unchanged;
otherwise the reference is the fixed tag "Tut-", the initials of the client
reference (else of the recipient display name), a hyphen, and the session
start date as ddmmyy. -/
theorem C7_reference_amended (inv : Invoice) :
    (∀ r, inv.reference = some r → r ≠ "" → (build_invoice_pdf inv).reference = r) ∧
    ((inv.reference = Option.none ∨ inv.reference = some "") →
      (build_invoice_pdf inv).reference =
        specDerivedReference (inv.student_name.getD "") inv.recipient.display_name
          inv.session_start.date) := by
  have href : (build_invoice_pdf inv).reference =
      (match inv.reference with
       | some r =>
         if r = "" then
           specDerivedReference (inv.student_name.getD "") inv.recipient.display_name
             inv.session_start.date
         else r
       | Option.none =>
         specDerivedReference (inv.student_name.getD "") inv.recipient.display_name
           inv.session_start.date) := rfl
  constructor
  · intro r hr hne
    rw [href, hr]
    simp [if_neg hne]
  · intro hcase
    rcases hcase with h | h
    · rw [href, h]
    · rw [href, h]
      simp

/-- C7 witness: the amended statement applied to a record with an explicit
reference and to `invA` (no explicit reference). -/
theorem C7_reference_witness :
    (build_invoice_pdf { invA with reference := some "CUSTOM-1" }).reference =
        "CUSTOM-1" ∧
    (build_invoice_pdf invA).reference =
      specDerivedReference "Jane Doe" "Bob Recipient" ⟨2026, 2, 21⟩ :=
  ⟨(C7_reference_amended _).1 "CUSTOM-1" rfl (by decide),
    (C7_reference_amended invA).2 (Or.inl rfl)⟩

/-- C3 counterexample: the legacy method with empty IBAN is reclassified to
`bank_domestic`, but its payment-details block still contains the IBAN and
BIC/SWIFT rows (with empty values), contradicting the claim that they are
absent. -/
theorem C3_counterexample :
    (normalizePaymentMethod pmLegacyNoIban).method_type = some "bank_domestic" ∧
    "IBAN" ∈ (payment_rows (normalizePaymentMethod pmLegacyNoIban) "REF" "GBP").map
        Prod.fst ∧
    "BIC/SWIFT" ∈ (payment_rows (normalizePaymentMethod pmLegacyNoIban) "REF"
        "GBP").map Prod.fst := by
  refine ⟨by decide, by decide, by decide⟩

/-- C3 (amended): legacy `bank_transfer` with a non-empty IBAN is
reclassified to `bank_international` and the block carries IBAN and
BIC/SWIFT rows; with an empty IBAN it is reclassified to `bank_domestic`
and the block carries the method label, currency, account holder, bank,
sort code, account number, IBAN, BIC/SWIFT and reference rows — the IBAN
row's value renders as the empty string and the BIC/SWIFT row carries the
stored bic value; the two rows are present, not omitted. -/
theorem C3_payment_rows_amended (pm : PaymentMethod) (ref cur : String)
    (hmt : pm.method_type = some "bank_transfer") :
    (pm.details.iban.getD "" ≠ "" →
      (normalizePaymentMethod pm).method_type = some "bank_international" ∧
      ("IBAN", pm.details.iban.getD "") ∈
        payment_rows (normalizePaymentMethod pm) ref cur ∧
      ("BIC/SWIFT", pm.details.bic.getD "") ∈
        payment_rows (normalizePaymentMethod pm) ref cur) ∧
    (pm.details.iban.getD "" = "" →
      (normalizePaymentMethod pm).method_type = some "bank_domestic" ∧
      payment_rows (normalizePaymentMethod pm) ref cur =
        [("Payment method", pm.label.getD (pyTitle "bank_domestic")),
         ("Payment currency", pm.details.currency.getD cur),
         ("Account holder", pm.details.account_holder.getD ""),
         ("Bank", pm.details.bank_name.getD ""),
         ("Sort code", pm.details.sort_code.getD ""),
         ("Account number", pm.details.account_number.getD ""),
         ("IBAN", ""),
         ("BIC/SWIFT", pm.details.bic.getD ""),
         ("Reference", ref)]) := by
  constructor
  · intro hiban
    have hnorm : normalizePaymentMethod pm =
        { pm with method_type := some "bank_international" } := by
      unfold normalizePaymentMethod
      rw [if_pos hmt, if_neg hiban]
    rw [hnorm]
    refine ⟨rfl, ?_, ?_⟩ <;> simp [payment_rows]
  · intro hiban
    have hnorm : normalizePaymentMethod pm =
        { pm with method_type := some "bank_domestic" } := by
      unfold normalizePaymentMethod
      rw [if_pos hmt, if_pos hiban]
    rw [hnorm]
    refine ⟨rfl, ?_⟩
    simp [payment_rows, hiban]

/-- C3 witness: the amended statement applied to the two legacy payment
methods; in the domestic case the IBAN row is blank while the BIC/SWIFT
row carries the stored value. -/
theorem C3_payment_rows_witness :
    ((normalizePaymentMethod pmLegacyIban).method_type = some "bank_international" ∧
      ("IBAN", "DE89370400440532013000") ∈
        payment_rows (normalizePaymentMethod pmLegacyIban) "REF" "GBP") ∧
    ((normalizePaymentMethod pmLegacyNoIban).method_type = some "bank_domestic" ∧
      ("IBAN", "") ∈ payment_rows (normalizePaymentMethod pmLegacyNoIban) "REF"
        "GBP" ∧
      ("BIC/SWIFT", "COBADEFF") ∈ payment_rows (normalizePaymentMethod pmLegacyNoIban)
        "REF" "GBP") := by
  have h1 := (C3_payment_rows_amended pmLegacyIban "REF" "GBP" (by decide)).1 (by decide)
  have h2 := (C3_payment_rows_amended pmLegacyNoIban "REF" "GBP" (by decide)).2 (by decide)
  exact ⟨⟨h1.1, h1.2.1⟩, ⟨h2.1, by rw [h2.2]; decide, by rw [h2.2]; decide⟩⟩

/-- C2: folding the seed log then the local log, the latest record per id
wins and fully shadows earlier versions: a surviving latest record is the
only record with its id in any group and appears in the group of its type,
while an id whose latest record is a tombstone — in particular after
`delete_profile`, which only appends to the local log — is absent from
every group. -/
theorem C2_load_profiles_latest_wins (seed loc : List PRow) (i : String) :
    (∀ last, lastById (seed ++ loc) i = some last → last.deleted = false →
      (∀ t r, r ∈ findGroup (load_profiles (some seed) (some loc)) t →
        r.id = some i → r = last) ∧
      last ∈ findGroup (load_profiles (some seed) (some loc)) (last.ptype.getD "")) ∧
    (∀ last, lastById (seed ++ loc) i = some last → last.deleted = true →
      ∀ t r, r ∈ findGroup (load_profiles (some seed) (some loc)) t →
        r.id ≠ some i) ∧
    (lastById (seed ++ loc) i = Option.none →
      ∀ t r, r ∈ findGroup (load_profiles (some seed) (some loc)) t →
        r.id ≠ some i) ∧
    (∀ ptyp, delete_profile loc i ptyp = loc ++ [deleteRecord i ptyp] ∧
      (∀ t r,
        r ∈ findGroup (load_profiles (some seed) (some (delete_profile loc i ptyp))) t →
        r.id ≠ some i)) := by
  have huniq : ∀ (loc' : List PRow) (t : String) (r : PRow),
      r ∈ findGroup (load_profiles (some seed) (some loc')) t → r.id = some i →
      lastById (seed ++ loc') i = some r ∧ r.deleted = false :=
    fun loc' t r hmem hid => load_profiles_id_unique seed loc' i t r hmem hid
  refine ⟨?_, ?_, ?_, ?_⟩
  · intro last hlast hdel
    refine ⟨?_, load_profiles_present seed loc i last hlast hdel⟩
    intro t r hmem hid
    have h := (huniq loc t r hmem hid).1
    rw [hlast] at h
    exact ((Option.some.injEq _ _).mp h).symm
  · intro last hlast hdel t r hmem hid
    have h := huniq loc t r hmem hid
    rw [hlast] at h
    have heq : last = r := (Option.some.injEq _ _).mp h.1
    rw [← heq] at h
    rw [hdel] at h
    exact absurd h.2 (by simp)
  · intro hnone t r hmem hid
    have h := (huniq loc t r hmem hid).1
    rw [hnone] at h
    exact Option.noConfusion h
  · intro ptyp
    refine ⟨rfl, ?_⟩
    intro t r hmem hid
    have h := (huniq (delete_profile loc i ptyp) t r hmem hid).1
    have hrw : seed ++ delete_profile loc i ptyp =
        (seed ++ loc) ++ [deleteRecord i ptyp] := by
      unfold delete_profile save_profile
      rw [List.append_assoc]
    rw [hrw, lastById_append_single,
      if_pos (show (deleteRecord i ptyp).id = some i ∧
        (deleteRecord i ptyp).ptype.isSome by exact ⟨rfl, rfl⟩)] at h
    have heq : deleteRecord i ptyp = r := (Option.some.injEq _ _).mp h
    have hdel := (huniq (delete_profile loc i ptyp) t r hmem hid).2
    rw [← heq] at hdel
    exact absurd hdel (by simp [deleteRecord])

/-- C2 witness: overwrite then tombstone on a concrete pair of logs. -/
theorem C2_load_profiles_witness :
    (lastById ([c2rowA] ++ [c2rowB]) "X" = some c2rowB ∧ c2rowB.deleted = false) ∧
    c2rowB ∈ findGroup (load_profiles (some [c2rowA]) (some [c2rowB])) "recipient" ∧
    ¬(c2rowB ∈ findGroup
        (load_profiles (some [c2rowA]) (some (delete_profile [c2rowB] "X" "recipient")))
        "recipient") :=
  ⟨⟨by decide, by decide⟩,
    ((C2_load_profiles_latest_wins [c2rowA] [c2rowB] "X").1 c2rowB (by decide)
      (by decide)).2,
    fun hmem =>
      ((C2_load_profiles_latest_wins [c2rowA] [c2rowB] "X").2.2.2 "recipient").2
        "recipient" c2rowB hmem rfl⟩

/-- C6: with every entry carrying a non-empty output path, pruning keeps
exactly the entries whose path exists, returns the number removed, leaves
only existing-path entries behind, and a second immediate call removes
nothing. -/
theorem C6_prune_missing (fs : String → Bool) (items : List HEntry)
    (hp : ∀ e ∈ items, e.output_path.getD "" ≠ "") :
    (prune_missing_history_files fs items).1 =
        items.filter (fun e => fs (e.output_path.getD "")) ∧
    (prune_missing_history_files fs items).2 =
        items.length - (prune_missing_history_files fs items).1.length ∧
    (∀ e ∈ (prune_missing_history_files fs items).1, fs (e.output_path.getD "") = true) ∧
    prune_missing_history_files fs (prune_missing_history_files fs items).1 =
        ((prune_missing_history_files fs items).1, 0) := by
  have hkeep : ∀ e ∈ items, keepEntry fs e = fs (e.output_path.getD "") := by
    intro e he
    have hne := hp e he
    unfold keepEntry
    cases ho : e.output_path with
    | none => rw [ho] at hne; simp at hne
    | some p =>
      rw [ho] at hne
      simp only [Option.getD_some] at hne ⊢
      rw [if_neg hne]
  have hfe : items.filter (keepEntry fs) =
      items.filter (fun e => fs (e.output_path.getD "")) :=
    List.filter_congr hkeep
  have hres := prune_result fs items
  refine ⟨?_, ?_, ?_, ?_⟩
  · rw [hres, hfe]
  · rw [hres]
  · intro e he
    rw [hres, hfe] at he
    have he' : e ∈ items.filter (fun e => fs (e.output_path.getD "")) := he
    have hgoal := List.of_mem_filter he'
    exact hgoal
  · rw [hres]
    show prune_missing_history_files fs (items.filter (keepEntry fs)) = _
    rw [prune_idempotent]

/-- C6 witness: of three history entries exactly one references a missing
file; the first call keeps the other two and reports one removal, the
second call reports zero. -/
theorem C6_prune_witness :
    hist3.all (fun e => e.output_path.getD "" != "") = true ∧
    (prune_missing_history_files fsB hist3).1 = [h1, h3] ∧
    (prune_missing_history_files fsB hist3).2 = 1 ∧
    prune_missing_history_files fsB (prune_missing_history_files fsB hist3).1 =
      ((prune_missing_history_files fsB hist3).1, 0) := by
  have h := C6_prune_missing fsB hist3 (by decide)
  exact ⟨by decide, by decide, by decide, h.2.2.2⟩

/-- C8 counterexample: with one stored entry and `limit = 0`, `load_history`
returns that entry, so the result is not bounded by `limit`. -/
theorem C8_counterexample :
    (load_history (some [h1]) 0).length = 1 ∧
    ¬((load_history (some [h1]) 0).length ≤ 0) := by
  refine ⟨by decide, by decide⟩

/-- C8 (amended): for every `limit ≥ 1`, `load_history` returns the last
`limit` entries in most-recent-first order — the most recently appended
entry first and at most `limit` entries. -/
theorem C8_load_history_amended (limit : Int) (h : 1 ≤ limit) (items : List HEntry) :
    load_history (some items) limit =
        (items.drop (items.length - limit.toNat)).reverse ∧
    (load_history (some items) limit).length ≤ limit.toNat ∧
    (items ≠ [] → (load_history (some items) limit).head? = items.getLast?) := by
  have heq := load_history_pos_eq limit h items
  refine ⟨heq, ?_, ?_⟩
  · rw [heq]
    simp only [List.length_reverse, List.length_drop]
    omega
  · intro hne
    rw [heq, List.head?_reverse]
    apply getLast?_drop
    have : 0 < items.length := List.length_pos.mpr hne
    omega

/-- C8 witness: the amended statement at `limit = 2` on three entries. -/
theorem C8_load_history_witness :
    load_history (some hist3) 2 = [h3, h2] ∧
    (load_history (some hist3) 2).length ≤ 2 ∧
    (load_history (some hist3) 2).head? = hist3.getLast? := by
  have h := C8_load_history_amended 2 (by decide) hist3
  exact ⟨by decide, h.2.1, h.2.2 (by decide)⟩

/-- C9: every load operation treats an absent file as an empty dataset:
`load_profiles` yields the three empty groups, `load_history` the empty
list for any limit, and `load_settings` the shaped default document. -/
theorem C9_absent_files_empty :
    load_profiles Option.none Option.none =
        [("provider", []), ("recipient", []), ("payment_method", [])] ∧
    (∀ limit : Int, load_history Option.none limit = []) ∧
    load_settings Option.none = { selected_profiles := [], field_defaults := [] } := by
  refine ⟨by decide, fun limit => ?_, rfl⟩
  unfold load_history read_jsonl pySliceFrom
  simp

/-- C10: `load_history` with `limit = 0` returns every entry in
most-recent-first order (the slice `items[-0:]` is the whole list), while
any `limit ≥ 1` truncates to the last `limit` entries. -/
theorem C10_load_history_zero :
    (∀ items : List HEntry, load_history (some items) 0 = items.reverse) ∧
    (∀ limit : Int, 1 ≤ limit → ∀ items : List HEntry,
      load_history (some items) limit =
        (items.drop (items.length - limit.toNat)).reverse) ∧
    load_history (some hist3) 0 = [h3, h2, h1] := by
  refine ⟨load_history_zero_eq, fun limit h items => load_history_pos_eq limit h items,
    by decide⟩

/-- C10 witness: the truncating branch applied at `limit = 1`. -/
theorem C10_load_history_zero_witness :
    load_history (some hist3) 1 = (hist3.drop (hist3.length - 1)).reverse ∧
    load_history (some hist3) 0 = [h3, h2, h1] :=
  ⟨(C10_load_history_zero.2.1 1 (by decide) hist3), by decide⟩

end InvoiceGen
